import Mathlib

/-!
# Verification of the actor face dataset pipeline

A shallow embedding, in Lean 4, of the core logic of the actor face dataset
collection system:

* `src/utils/helpers.py` : `cosine_similarity`, `normalize_actor_name`
* `src/modules/actor_verifier.py` : `ActorVerifier.verify_image`,
  `ActorVerifier.verify_batch`, `DuplicateDetector.hamming_distance`,
  `DuplicateDetector.hash_similarity`, `DuplicateDetector.find_duplicates`,
  `DuplicateDetector.remove_duplicates`
* `src/main.py` : `ActorDatasetBuilder.verify_actor_faces`,
  `ActorDatasetBuilder.build_dataset`

Modelling conventions:

* Python floats are modelled as real numbers (`Real`); the perceptual-hash
  similarity arithmetic, which is exact, is modelled over `Rat`.
* Python strings are modelled as `List Char`; character classes follow
  Lean's ASCII character predicates.
* Image files are an abstract type; the external collaborators (embedding
  extractor, perceptual hash, file size) are function parameters.
* Python's stable `sorted` is modelled by `List.insertionSort`, which is a
  stable insertion sort (ties keep the original order).
-/

namespace ActorDataset

/- The Batteries rational primitives are sealed against unfolding; the
concrete scenario evaluations below go through the kernel, so restore the
default reducibility for them. -/
attribute [local semireducible] Rat.sub Rat.add Rat.mul Rat.inv Rat.ofScientific

/-! ## Configuration constants (config/settings.py) -/

/-- config/settings.py: FACE_SIMILARITY_THRESHOLD = 0.42 -/
def FACE_SIMILARITY_THRESHOLD : ℝ := 0.42

/-- config/settings.py: DUPLICATE_THRESHOLD = 0.95 -/
def DUPLICATE_THRESHOLD : ℚ := 0.95

/-- config/settings.py: TARGET_IMAGES = 50 -/
def TARGET_IMAGES : ℕ := 50

/-! ## src/utils/helpers.py : cosine_similarity -/

/-- Dot product of two vectors, as computed by np.dot on 1-d arrays:
the sum of componentwise products. -/
def dotList : List ℝ → List ℝ → ℝ
  | x :: xs, y :: ys => x * y + dotList xs ys
  | _, _ => 0

/-- Euclidean norm of a vector, np.linalg.norm. -/
noncomputable def l2norm (v : List ℝ) : ℝ :=
  Real.sqrt (dotList v v)

/-- helpers.cosine_similarity: returns 0.0 on an empty vector, returns 0.0
when either norm is zero, otherwise L2-normalizes both vectors, takes the
dot product and clamps the result to the interval from 0 to 1. -/
noncomputable def cosine_similarity (v1 v2 : List ℝ) : ℝ :=
  if v1.length = 0 ∨ v2.length = 0 then 0
  else if l2norm v1 = 0 ∨ l2norm v2 = 0 then 0
  else
    max 0 (min 1 (dotList (v1.map fun x => x / l2norm v1)
                          (v2.map fun x => x / l2norm v2)))

theorem dotList_nil_right (v : List ℝ) : dotList v [] = 0 := by
  cases v <;> rfl

theorem dotList_comm (v w : List ℝ) : dotList v w = dotList w v := by
  induction v generalizing w with
  | nil => cases w <;> rfl
  | cons x xs ih =>
    cases w with
    | nil => rfl
    | cons y ys => simp only [dotList, ih]; ring

theorem cosine_similarity_comm (v1 v2 : List ℝ) :
    cosine_similarity v1 v2 = cosine_similarity v2 v1 := by
  unfold cosine_similarity
  by_cases hA : v1.length = 0 ∨ v2.length = 0
  · rw [if_pos hA, if_pos hA.symm]
  · rw [if_neg hA, if_neg (hA ∘ Or.symm)]
    by_cases hB : l2norm v1 = 0 ∨ l2norm v2 = 0
    · rw [if_pos hB, if_pos hB.symm]
    · rw [if_neg hB, if_neg (hB ∘ Or.symm), dotList_comm]

theorem cosine_similarity_nonneg (v1 v2 : List ℝ) :
    0 ≤ cosine_similarity v1 v2 := by
  unfold cosine_similarity
  split_ifs with h1 h2
  · exact le_refl 0
  · exact le_refl 0
  · exact le_max_left 0 _

theorem cosine_similarity_le_one (v1 v2 : List ℝ) :
    cosine_similarity v1 v2 ≤ 1 := by
  unfold cosine_similarity
  split_ifs with h1 h2
  · exact zero_le_one
  · exact zero_le_one
  · exact max_le zero_le_one (min_le_left 1 _)

theorem cosine_similarity_zero_of_degenerate (v1 v2 : List ℝ)
    (h : l2norm v1 = 0 ∨ l2norm v2 = 0 ∨ v1.length = 0 ∨ v2.length = 0) :
    cosine_similarity v1 v2 = 0 := by
  unfold cosine_similarity
  by_cases hA : v1.length = 0 ∨ v2.length = 0
  · rw [if_pos hA]
  · rw [if_neg hA]
    have hB : l2norm v1 = 0 ∨ l2norm v2 = 0 := by
      rcases h with h | h | h | h
      · exact Or.inl h
      · exact Or.inr h
      · exact absurd (Or.inl h) hA
      · exact absurd (Or.inr h) hA
    rw [if_pos hB]

/-- C8: cosine_similarity is symmetric in its two vector arguments, its
result always lies in the interval from 0 to 1 after clamping, and it
returns 0.0 whenever either input vector has zero norm or zero length. -/
theorem C8_cosine_similarity_symm_bounded_zero (v1 v2 : List ℝ) :
    cosine_similarity v1 v2 = cosine_similarity v2 v1 ∧
    (0 ≤ cosine_similarity v1 v2 ∧ cosine_similarity v1 v2 ≤ 1) ∧
    ((l2norm v1 = 0 ∨ l2norm v2 = 0 ∨ v1.length = 0 ∨ v2.length = 0) →
      cosine_similarity v1 v2 = 0) :=
  ⟨cosine_similarity_comm v1 v2,
   ⟨cosine_similarity_nonneg v1 v2, cosine_similarity_le_one v1 v2⟩,
   cosine_similarity_zero_of_degenerate v1 v2⟩

theorem C8_witness : cosine_similarity [0] [1] = 0 :=
  (C8_cosine_similarity_symm_bounded_zero [0] [1]).2.2
    (Or.inl (by simp [l2norm, dotList]))

/-! ## src/modules/actor_verifier.py : ActorVerifier

The face detector collaborator is modelled by a function
emb : alpha -> Option (List Real) giving the embedding extracted from an
image file (none when no embedding could be extracted), and the reference
embedding held by the verifier is an Option (List Real) (none when no
reference was set). -/

variable {α : Type}

/-- ActorVerifier.verify_image: returns (False, 0.0) when no reference
embedding is set or when no embedding can be extracted from the image;
otherwise compares the cosine similarity against the threshold (the
configured constant when the threshold argument is None). -/
noncomputable def verify_image (ref : Option (List ℝ)) (emb : α → Option (List ℝ))
    (threshold : Option ℝ) (p : α) : Bool × ℝ :=
  match ref with
  | none => (false, 0)
  | some r =>
    match emb p with
    | none => (false, 0)
    | some e =>
      let t := threshold.getD FACE_SIMILARITY_THRESHOLD
      let s := cosine_similarity r e
      (decide (t ≤ s), s)

/-- The loop body of ActorVerifier.verify_batch: images accepted by
verify_image are appended to valid_images in input order; when
return_scores is set, every image's score is recorded. -/
noncomputable def verify_batch_loop (r : List ℝ) (emb : α → Option (List ℝ))
    (threshold : Option ℝ) (return_scores : Bool) :
    List α → List α × List (α × ℝ)
  | [] => ([], [])
  | p :: ps =>
    let res := verify_image (some r) emb threshold p
    let rest := verify_batch_loop r emb threshold return_scores ps
    (if res.1 then p :: rest.1 else rest.1,
     if return_scores then (p, res.2) :: rest.2 else rest.2)

/-- ActorVerifier.verify_batch: returns ([], {}) when no reference
embedding is set, otherwise runs the verification loop. -/
noncomputable def verify_batch (ref : Option (List ℝ)) (emb : α → Option (List ℝ))
    (threshold : Option ℝ) (return_scores : Bool) (paths : List α) :
    List α × List (α × ℝ) :=
  match ref with
  | none => ([], [])
  | some r => verify_batch_loop r emb threshold return_scores paths

theorem verify_batch_loop_filter (r : List ℝ) (emb : α → Option (List ℝ))
    (t : Option ℝ) (rs : Bool) (paths : List α)
    (hemb : ∀ p ∈ paths, (emb p).isSome) :
    (verify_batch_loop r emb t rs paths).1 =
      paths.filter fun p =>
        decide (t.getD FACE_SIMILARITY_THRESHOLD ≤
          cosine_similarity r ((emb p).getD [])) := by
  induction paths with
  | nil => rfl
  | cons p ps ih =>
    have hp : (emb p).isSome := hemb p (List.mem_cons_self p ps)
    obtain ⟨e, he⟩ := Option.isSome_iff_exists.mp hp
    have ihs := ih (fun q hq => hemb q (List.mem_cons_of_mem p hq))
    simp only [verify_batch_loop, verify_image, he, List.filter_cons, Option.getD_some, ihs]

/-- C1: for every non-empty list of face-image candidates (each of which
yields an embedding) and a set reference embedding, verify_batch accepts
exactly the candidates whose cosine similarity to the reference embedding
is at least the configured threshold, in their original input order. -/
theorem C1_verify_batch_accepts_exactly_threshold (r : List ℝ)
    (emb : α → Option (List ℝ)) (rs : Bool) (paths : List α)
    (hne : paths ≠ []) (hemb : ∀ p ∈ paths, (emb p).isSome) :
    (verify_batch (some r) emb none rs paths).1 =
      paths.filter fun p =>
        decide (FACE_SIMILARITY_THRESHOLD ≤
          cosine_similarity r ((emb p).getD [])) := by
  unfold verify_batch
  exact verify_batch_loop_filter r emb none rs paths hemb

theorem l2norm_single_one : l2norm [(1 : ℝ)] = 1 := by
  simp [l2norm, dotList]

theorem cosine_similarity_single_one :
    cosine_similarity [(1 : ℝ)] [(1 : ℝ)] = 1 := by
  unfold cosine_similarity
  rw [if_neg (by simp), if_neg (by simp [l2norm_single_one])]
  norm_num [l2norm_single_one, dotList]

theorem C1_witness :
    ([0] ≠ ([] : List ℕ)) ∧
    (verify_batch (some [1]) (fun _ : ℕ => some [1]) none false [0]).1 = [0] := by
  refine ⟨by simp, ?_⟩
  rw [C1_verify_batch_accepts_exactly_threshold [1] (fun _ : ℕ => some [1]) false [0]
    (by simp) (by intro p _; rfl)]
  norm_num [cosine_similarity_single_one, FACE_SIMILARITY_THRESHOLD]

theorem verify_batch_loop_mono (r : List ℝ) (emb : α → Option (List ℝ))
    (t1 t2 : ℝ) (rs : Bool) (paths : List α) (h12 : t1 ≤ t2) :
    ∀ p : α, p ∈ (verify_batch_loop r emb (some t2) rs paths).1 →
      p ∈ (verify_batch_loop r emb (some t1) rs paths).1 := by
  induction paths with
  | nil => intro p hp; exact hp
  | cons q ps ih =>
    intro p hp
    simp only [verify_batch_loop] at hp ⊢
    rcases hq : emb q with _ | e
    · simp only [verify_image, hq] at hp ⊢
      exact ih p hp
    · simp only [verify_image, hq, Option.getD_some] at hp ⊢
      by_cases h2 : t2 ≤ cosine_similarity r e
      · have h1 : t1 ≤ cosine_similarity r e := le_trans h12 h2
        simp only [h2, h1, decide_eq_true_eq, if_pos] at hp ⊢
        rcases List.mem_cons.mp hp with hh | hh
        · exact List.mem_cons.mpr (Or.inl hh)
        · exact List.mem_cons.mpr (Or.inr (ih p hh))
      · rw [if_neg (by simpa using h2)] at hp
        by_cases h1 : t1 ≤ cosine_similarity r e
        · rw [if_pos (by simpa using h1)]
          exact List.mem_cons.mpr (Or.inr (ih p hp))
        · rw [if_neg (by simpa using h1)]
          exact ih p hp

/-- C9: for a fixed reference embedding and candidate list, raising the
threshold never accepts new candidates: for thresholds t1 at most t2, the
set accepted by verify_batch at t2 is a subset of the set accepted at t1. -/
theorem C9_accepted_antitone_in_threshold (r : List ℝ)
    (emb : α → Option (List ℝ)) (t1 t2 : ℝ) (rs : Bool) (paths : List α)
    (h12 : t1 ≤ t2) :
    ∀ p : α, p ∈ (verify_batch (some r) emb (some t2) rs paths).1 →
      p ∈ (verify_batch (some r) emb (some t1) rs paths).1 := by
  unfold verify_batch
  exact verify_batch_loop_mono r emb t1 t2 rs paths h12

theorem C9_witness :
    (0 : ℝ) ≤ (1 : ℝ) ∧
    (0 : ℕ) ∈ (verify_batch (some [1]) (fun _ : ℕ => some [1]) (some 0) false [0]).1 := by
  refine ⟨zero_le_one, ?_⟩
  refine C9_accepted_antitone_in_threshold [1] (fun _ : ℕ => some [1]) 0 1 false [0]
    zero_le_one 0 ?_
  show (0 : ℕ) ∈ (verify_batch_loop [1] (fun _ : ℕ => some [1]) (some 1) false [0]).1
  simp only [verify_batch_loop, verify_image, Option.getD_some,
    cosine_similarity_single_one]
  rw [if_pos (by simp)]
  exact List.mem_cons_self 0 _

/-! ## src/modules/actor_verifier.py : DuplicateDetector

Perceptual-hash fingerprints are the strings produced by the imagehash
collaborator; they are modelled as lists of characters. The similarity
arithmetic is exact, so it is modelled over the rationals. -/

/-- A perceptual-hash string. -/
abbrev Fingerprint := List Char

/-- The hash-string preprocessing str(hash).split(the colon)[-1] used by
hamming_distance and hash_similarity: the segment after the last colon
(the whole string when it has no colon). -/
def stripTag (h : Fingerprint) : Fingerprint :=
  h.foldl (fun acc c => if c = ':' then [] else acc ++ [c]) []

/-- DuplicateDetector.hamming_distance: the number of differing character
positions of the two (prefix-stripped) hash strings, zipped positionally.
The except branch of the Python code can only fire on a non-string
argument and is not modelled. -/
def hamming_distance (h1 h2 : Fingerprint) : ℕ :=
  ((stripTag h1).zip (stripTag h2)).countP fun p => decide (p.1 ≠ p.2)

/-- Python max on two rationals (an executable mirror of the lattice
max). -/
def ratMax (a b : ℚ) : ℚ := if a ≤ b then b else a

/-- Python min on two rationals (an executable mirror of the lattice
min). -/
def ratMin (a b : ℚ) : ℚ := if a ≤ b then a else b

theorem ratMax_eq_max (a b : ℚ) : ratMax a b = max a b := (max_def a b).symm

theorem ratMin_eq_min (a b : ℚ) : ratMin a b = min a b := (min_def a b).symm

/-- DuplicateDetector.hash_similarity: 1 - distance / max_distance clamped
into the interval from 0 to 1, where max_distance is the length of the
first stripped hash; 0.0 when that length is zero. -/
def hash_similarity (h1 h2 : Fingerprint) : ℚ :=
  if (stripTag h1).length = 0 then 0
  else ratMax 0 (ratMin 1
    (1 - (hamming_distance h1 h2 : ℚ) / ((stripTag h1).length : ℚ)))

theorem hamming_distance_le (h1 h2 : Fingerprint) :
    hamming_distance h1 h2 ≤ (stripTag h1).length := by
  unfold hamming_distance
  calc ((stripTag h1).zip (stripTag h2)).countP (fun p => decide (p.1 ≠ p.2))
      ≤ ((stripTag h1).zip (stripTag h2)).length := List.countP_le_length _
    _ ≤ (stripTag h1).length := by
        rw [List.length_zip]; exact min_le_left _ _

/-- C3: for fingerprints of a common positive (stripped) length n, the
deduplication similarity equals 1 minus the Hamming distance divided by n,
and that value already lies in the interval from 0 to 1, so the clamp is
the identity on it. -/
theorem C3_hash_similarity_eq_one_sub_normalized_hamming
    (h1 h2 : Fingerprint) (n : ℕ)
    (hl1 : (stripTag h1).length = n) (hl2 : (stripTag h2).length = n)
    (hpos : 0 < n) :
    hash_similarity h1 h2 = 1 - (hamming_distance h1 h2 : ℚ) / n ∧
    0 ≤ hash_similarity h1 h2 ∧ hash_similarity h1 h2 ≤ 1 := by
  have hd : (hamming_distance h1 h2 : ℚ) ≤ n := by
    have := hamming_distance_le h1 h2
    rw [hl1] at this
    exact_mod_cast this
  have hn : (0 : ℚ) < n := by exact_mod_cast hpos
  have hfrac0 : (0 : ℚ) ≤ (hamming_distance h1 h2 : ℚ) / n :=
    div_nonneg (by positivity) (le_of_lt hn)
  have hfrac1 : (hamming_distance h1 h2 : ℚ) / n ≤ 1 :=
    (div_le_one hn).mpr hd
  have hval : hash_similarity h1 h2 = 1 - (hamming_distance h1 h2 : ℚ) / n := by
    unfold hash_similarity
    rw [if_neg (by rw [hl1]; omega)]
    rw [hl1, ratMax_eq_max, ratMin_eq_min]
    rw [min_eq_right (by linarith), max_eq_right (by linarith)]
  refine ⟨hval, ?_, ?_⟩
  · rw [hval]; linarith
  · rw [hval]; linarith

theorem C3_witness :
    (stripTag ['0', '1']).length = 2 ∧ (stripTag ['0', '0']).length = 2 ∧ 0 < 2 ∧
    hash_similarity ['0', '1'] ['0', '0'] = 1 - (hamming_distance ['0', '1'] ['0', '0'] : ℚ) / 2 :=
  ⟨by decide, by decide, by decide,
   (C3_hash_similarity_eq_one_sub_normalized_hamming ['0', '1'] ['0', '0'] 2
     (by decide) (by decide) (by decide)).1⟩

/-- Python dict keys in insertion order: keep the first occurrence of each
element of the list. compute_hashes builds such a dict, keyed by image
path. -/
def dedupKeepFirst [DecidableEq α] : List α → List α
  | [] => []
  | p :: ps => p :: ((dedupKeepFirst ps).filter fun q => decide (q ≠ p))

/-- The hash stored for an image by compute_hashes: none when the hash
collaborator fails, and none for an empty hash string, which is falsy in
the Python guard that fills the dictionary. -/
def validHash (hashOf : α → Option Fingerprint) (p : α) : Option Fingerprint :=
  match hashOf p with
  | some h => if h.isEmpty then none else some h
  | none => none

/-- The key list of the compute_hashes dictionary: images with a valid
hash, first occurrences only, in input order. -/
def hashKeys [DecidableEq α] (hashOf : α → Option Fingerprint) (paths : List α) : List α :=
  dedupKeepFirst (paths.filter fun p => (validHash hashOf p).isSome)

/-- The hash looked up for a key of the compute_hashes dictionary. -/
def hashAt (hashOf : α → Option Fingerprint) (p : α) : Fingerprint :=
  (validHash hashOf p).getD []

/-- The grouping test of find_duplicates: similarity at least the
threshold. -/
def isDup (θ : ℚ) (hs : α → Fingerprint) (a b : α) : Bool :=
  decide (θ ≤ hash_similarity (hs a) (hs b))

/-- Fuel-indexed form of the double loop of find_duplicates; the fuel
only serves structural recursion and is irrelevant once it is at least
the list length. -/
def gatherGo (θ : ℚ) (hs : α → Fingerprint) : ℕ → List α → List (List α)
  | _, [] => []
  | 0, _ :: _ => []
  | fuel + 1, a :: rest =>
    (if (rest.filter (isDup θ hs a)).isEmpty then []
     else [a :: rest.filter (isDup θ hs a)]) ++
    gatherGo θ hs fuel (rest.filter fun b => !(isDup θ hs a b))

/-- The double loop of DuplicateDetector.find_duplicates. The outer loop
takes each image not yet claimed into a group, scans the later unclaimed
images, and claims every one whose hash similarity reaches the threshold;
a group is recorded only when it has at least two members. Claimed images
are exactly the later images matching the group opener, so the processed
set is modelled by recursing on the non-matching remainder. -/
def gatherGroups (θ : ℚ) (hs : α → Fingerprint) (l : List α) : List (List α) :=
  gatherGo θ hs l.length l

theorem gatherGo_congr (θ : ℚ) (hs : α → Fingerprint) :
    ∀ (f1 f2 : ℕ) (l : List α), l.length ≤ f1 → l.length ≤ f2 →
      gatherGo θ hs f1 l = gatherGo θ hs f2 l := by
  intro f1
  induction f1 with
  | zero =>
    intro f2 l h1 _
    have : l = [] := List.eq_nil_of_length_eq_zero (Nat.le_zero.mp h1)
    subst this
    cases f2 <;> rfl
  | succ f ih =>
    intro f2 l h1 h2
    cases l with
    | nil => cases f2 <;> rfl
    | cons a rest =>
      cases f2 with
      | zero => simp at h2
      | succ f2' =>
        rw [gatherGo, gatherGo]
        congr 1
        exact ih f2' (rest.filter fun b => !(isDup θ hs a b))
          (le_trans (List.length_filter_le _ _) (Nat.lt_succ_iff.mp h1))
          (le_trans (List.length_filter_le _ _) (Nat.lt_succ_iff.mp h2))

theorem gatherGroups_nil (θ : ℚ) (hs : α → Fingerprint) :
    gatherGroups θ hs ([] : List α) = [] := rfl

theorem gatherGroups_cons (θ : ℚ) (hs : α → Fingerprint) (a : α) (rest : List α) :
    gatherGroups θ hs (a :: rest) =
      (if (rest.filter (isDup θ hs a)).isEmpty then []
       else [a :: rest.filter (isDup θ hs a)]) ++
      gatherGroups θ hs (rest.filter fun b => !(isDup θ hs a b)) := by
  unfold gatherGroups
  rw [List.length_cons, gatherGo]
  congr 1
  exact gatherGo_congr θ hs rest.length _ _ (List.length_filter_le _ _) (le_refl _)

/-- Induction along the recursion structure of the find_duplicates loop. -/
theorem gatherGroups_induction (θ : ℚ) (hs : α → Fingerprint) (P : List α → Prop)
    (h0 : P [])
    (h1 : ∀ a rest, P (rest.filter fun b => !(isDup θ hs a b)) → P (a :: rest)) :
    ∀ l : List α, P l := by
  intro l
  generalize hn : l.length = n
  induction n using Nat.strong_induction_on generalizing l with
  | _ n ih =>
    cases l with
    | nil => exact h0
    | cons a rest =>
      refine h1 a rest (ih (rest.filter fun b => !(isDup θ hs a b)).length ?_ _ rfl)
      subst hn
      simp only [List.length_cons]
      exact Nat.lt_succ_of_le (List.length_filter_le _ _)

/-- DuplicateDetector.find_duplicates. -/
def find_duplicates [DecidableEq α] (θ : ℚ) (hashOf : α → Option Fingerprint)
    (paths : List α) : List (List α) :=
  gatherGroups θ (hashAt hashOf) (hashKeys hashOf paths)

/-- Python sorted(group, key=file size, reverse=True): a stable sort,
descending on file size, ties keeping the original order; modelled by the
stable insertion sort. -/
def sortBySizeDesc (fsize : α → ℕ) (g : List α) : List α :=
  g.insertionSort fun a b => fsize b ≤ fsize a

/-- The order in which remove_duplicates keeps and removes a group:
sorted by descending file size when keep_largest, otherwise as found. -/
def keepOrder (fsize : α → ℕ) (keep_largest : Bool) (g : List α) : List α :=
  if keep_largest then sortBySizeDesc fsize g else g

/-- The group member kept by remove_duplicates (group[0] of the kept
order). -/
def representative (fsize : α → ℕ) (keep_largest : Bool) (g : List α) : Option α :=
  (keepOrder fsize keep_largest g).head?

/-- The removed_images list accumulated by the loop of remove_duplicates:
for each duplicate group, every member except the head of the kept order
is appended. -/
def removedList [DecidableEq α] (θ : ℚ) (hashOf : α → Option Fingerprint)
    (fsize : α → ℕ) (keep_largest : Bool) (paths : List α) : List α :=
  (find_duplicates θ hashOf paths).foldl
    (fun rem g => rem ++ (keepOrder fsize keep_largest g).tail) []

/-- DuplicateDetector.remove_duplicates: finds the duplicate groups,
removes every group member except the first of the kept order, and
returns the remaining images as a sorted list (Python
sorted(list(unique_images)) on the set of input paths minus the removed
ones) together with the removed images. -/
def remove_duplicates [LinearOrder α] (θ : ℚ) (hashOf : α → Option Fingerprint)
    (fsize : α → ℕ) (keep_largest : Bool) (paths : List α) : List α × List α :=
  let removed := removedList θ hashOf fsize keep_largest paths
  (((dedupKeepFirst paths).filter fun p => decide (p ∉ removed)).insertionSort (· ≤ ·),
   removed)

theorem mem_dedupKeepFirst [DecidableEq α] (l : List α) (x : α) :
    x ∈ dedupKeepFirst l ↔ x ∈ l := by
  induction l with
  | nil => rfl
  | cons p ps ih =>
    simp only [dedupKeepFirst, List.mem_cons, List.mem_filter, ih]
    constructor
    · rintro (h | ⟨h, _⟩)
      · exact Or.inl h
      · exact Or.inr h
    · rintro (h | h)
      · exact Or.inl h
      · by_cases hx : x = p
        · exact Or.inl hx
        · exact Or.inr ⟨h, by simpa using hx⟩

theorem nodup_dedupKeepFirst [DecidableEq α] (l : List α) :
    (dedupKeepFirst l).Nodup := by
  induction l with
  | nil => exact List.nodup_nil
  | cons p ps ih =>
    refine List.nodup_cons.mpr ⟨?_, ih.filter _⟩
    intro hmem
    have := (List.mem_filter.mp hmem).2
    simp at this

theorem dedupKeepFirst_eq_self [DecidableEq α] (l : List α) (h : l.Nodup) :
    dedupKeepFirst l = l := by
  induction l with
  | nil => rfl
  | cons p ps ih =>
    have hps := (List.nodup_cons.mp h).2
    have hnp := (List.nodup_cons.mp h).1
    rw [dedupKeepFirst, ih hps, List.filter_eq_self.mpr]
    intro a ha
    simp only [decide_eq_true_eq]
    intro hap
    exact hnp (hap ▸ ha)

theorem gatherGroups_length (θ : ℚ) (hs : α → Fingerprint) :
    ∀ l : List α, ∀ g ∈ gatherGroups θ hs l, 2 ≤ g.length := by
  refine gatherGroups_induction θ hs _ ?_ ?_
  · intro g hg; simp [gatherGroups_nil] at hg
  · intro a rest ih g hg
    rw [gatherGroups_cons] at hg
    rcases List.mem_append.mp hg with hg | hg
    · by_cases hde : (rest.filter (isDup θ hs a)).isEmpty
      · rw [if_pos hde] at hg; simp at hg
      · rw [if_neg hde] at hg
        simp only [List.mem_singleton] at hg
        subst hg
        have hne : rest.filter (isDup θ hs a) ≠ [] := by
          intro hnil; rw [hnil] at hde; simp at hde
        have hpos : 0 < (rest.filter (isDup θ hs a)).length :=
          List.length_pos.mpr hne
        simp only [List.length_cons]
        omega
    · exact ih g hg

theorem gatherGroups_subset (θ : ℚ) (hs : α → Fingerprint) :
    ∀ l : List α, ∀ g ∈ gatherGroups θ hs l, ∀ x ∈ g, x ∈ l := by
  refine gatherGroups_induction θ hs _ ?_ ?_
  · intro g hg; simp [gatherGroups_nil] at hg
  · intro a rest ih g hg x hx
    rw [gatherGroups_cons] at hg
    rcases List.mem_append.mp hg with hg | hg
    · by_cases hde : (rest.filter (isDup θ hs a)).isEmpty
      · rw [if_pos hde] at hg; simp at hg
      · rw [if_neg hde] at hg
        simp only [List.mem_singleton] at hg
        subst hg
        rcases List.mem_cons.mp hx with hxa | hxd
        · exact hxa ▸ List.mem_cons_self a rest
        · exact List.mem_cons_of_mem a (List.mem_of_mem_filter hxd)
    · have hxnd : x ∈ rest.filter fun b => !(isDup θ hs a b) := ih g hg x hx
      exact List.mem_cons_of_mem a (List.mem_of_mem_filter hxnd)

theorem mem_foldl_append_tail (f : List α → List α) (groups : List (List α)) :
    ∀ (init : List α) (x : α),
      (x ∈ groups.foldl (fun rem g => rem ++ (f g).tail) init ↔
        x ∈ init ∨ ∃ g, g ∈ groups ∧ x ∈ (f g).tail) := by
  induction groups with
  | nil => intro init x; simp
  | cons g gs ih =>
    intro init x
    rw [List.foldl_cons, ih]
    simp only [List.mem_append, List.mem_cons]
    constructor
    · rintro ((h | h) | ⟨g', hg', hx⟩)
      · exact Or.inl h
      · exact Or.inr ⟨g, Or.inl rfl, h⟩
      · exact Or.inr ⟨g', Or.inr hg', hx⟩
    · rintro (h | ⟨g', hg' | hg', hx⟩)
      · exact Or.inl (Or.inl h)
      · exact Or.inl (Or.inr (hg' ▸ hx))
      · exact Or.inr ⟨g', hg', hx⟩

theorem mem_keepOrder (fsize : α → ℕ) (kl : Bool) (g : List α) (x : α) :
    x ∈ keepOrder fsize kl g ↔ x ∈ g := by
  unfold keepOrder sortBySizeDesc
  by_cases h : kl = true
  · rw [if_pos h]; exact List.mem_insertionSort _
  · rw [if_neg h]

theorem mem_removedList [DecidableEq α] (θ : ℚ) (hashOf : α → Option Fingerprint)
    (fsize : α → ℕ) (kl : Bool) (paths : List α) (x : α) :
    x ∈ removedList θ hashOf fsize kl paths ↔
      ∃ g, g ∈ find_duplicates θ hashOf paths ∧ x ∈ (keepOrder fsize kl g).tail := by
  unfold removedList
  rw [mem_foldl_append_tail]
  simp

theorem removedList_subset [DecidableEq α] (θ : ℚ) (hashOf : α → Option Fingerprint)
    (fsize : α → ℕ) (kl : Bool) (paths : List α) (x : α)
    (hx : x ∈ removedList θ hashOf fsize kl paths) : x ∈ paths := by
  obtain ⟨g, hg, hxt⟩ := (mem_removedList θ hashOf fsize kl paths x).mp hx
  have hxg : x ∈ g := (mem_keepOrder fsize kl g x).mp (List.mem_of_mem_tail hxt)
  have hxk : x ∈ hashKeys hashOf paths :=
    gatherGroups_subset θ (hashAt hashOf) (hashKeys hashOf paths) g hg x hxg
  unfold hashKeys at hxk
  exact List.mem_of_mem_filter ((mem_dedupKeepFirst _ x).mp hxk)

/-- C2: every duplicate group found has at least two members, the kept
representative of each group is a member of that group, and the union of
the returned unique list and removed list equals the original input as a
set. -/
theorem C2_remove_duplicates_invariants [LinearOrder α] (θ : ℚ)
    (hashOf : α → Option Fingerprint) (fsize : α → ℕ) (kl : Bool)
    (paths : List α) :
    (∀ g ∈ find_duplicates θ hashOf paths, 2 ≤ g.length) ∧
    (∀ g ∈ find_duplicates θ hashOf paths,
      ∀ rep, representative fsize kl g = some rep → rep ∈ g) ∧
    (∀ x : α,
      (x ∈ (remove_duplicates θ hashOf fsize kl paths).1 ∨
       x ∈ (remove_duplicates θ hashOf fsize kl paths).2) ↔ x ∈ paths) := by
  refine ⟨gatherGroups_length θ (hashAt hashOf) (hashKeys hashOf paths), ?_, ?_⟩
  · intro g _ rep hrep
    unfold representative at hrep
    rcases hko : keepOrder fsize kl g with _ | ⟨y, ys⟩
    · rw [hko] at hrep; simp at hrep
    · rw [hko] at hrep
      simp only [List.head?_cons, Option.some.injEq] at hrep
      refine (mem_keepOrder fsize kl g rep).mp ?_
      rw [hko, hrep]
      exact List.mem_cons_self rep ys
  · intro x
    simp only [remove_duplicates]
    constructor
    · rintro (hu | hr)
      · have hm := (List.mem_insertionSort _).mp hu
        exact List.mem_of_mem_filter hm |> (mem_dedupKeepFirst paths x).mp
      · exact removedList_subset θ hashOf fsize kl paths x hr
    · intro hx
      by_cases hrem : x ∈ removedList θ hashOf fsize kl paths
      · exact Or.inr hrem
      · refine Or.inl ?_
        rw [List.mem_insertionSort _]
        exact List.mem_filter.mpr
          ⟨(mem_dedupKeepFirst paths x).mpr hx, by simpa using hrem⟩

theorem C2_witness :
    ((2 : ℕ) ∈ (remove_duplicates 0.95 (fun _ : ℕ => none) id true [2]).1 ∨
     (2 : ℕ) ∈ (remove_duplicates 0.95 (fun _ : ℕ => none) id true [2]).2) :=
  ((C2_remove_duplicates_invariants 0.95 (fun _ : ℕ => none) id true [2]).2.2 2).mpr
    (List.mem_cons_self 2 [])

/-- Modelled from the spec: the group member with the largest backing
file size, ties broken in favor of the first-encountered member. -/
def firstLargest (fsize : α → ℕ) : List α → Option α
  | [] => none
  | x :: xs =>
    match firstLargest fsize xs with
    | none => some x
    | some y => if fsize x < fsize y then some y else some x

theorem head?_orderedInsert (r : α → α → Prop) [DecidableRel r] (x y : α)
    (ys : List α) :
    ((y :: ys).orderedInsert r x).head? = if r x y then some x else some y := by
  by_cases h : r x y
  · rw [List.orderedInsert, if_pos h, if_pos h, List.head?_cons]
  · rw [List.orderedInsert, if_neg h, if_neg h, List.head?_cons]

theorem head?_sortBySizeDesc (fsize : α → ℕ) :
    ∀ g : List α, (sortBySizeDesc fsize g).head? = firstLargest fsize g := by
  intro g
  induction g with
  | nil => rfl
  | cons x xs ih =>
    unfold sortBySizeDesc at ih ⊢
    rw [List.insertionSort]
    rcases hs : List.insertionSort (fun a b => fsize b ≤ fsize a) xs with _ | ⟨y, ys⟩
    · have hxs : xs = [] := by
        have hlen := List.length_insertionSort (fun a b => fsize b ≤ fsize a) xs
        rw [hs] at hlen
        exact List.eq_nil_of_length_eq_zero hlen.symm
      subst hxs
      rfl
    · rw [hs] at ih
      rw [head?_orderedInsert]
      rw [List.head?_cons] at ih
      unfold firstLargest
      rw [← ih]
      show (if fsize y ≤ fsize x then some x else some y) =
        if fsize x < fsize y then some y else some x
      by_cases h : fsize y ≤ fsize x
      · rw [if_pos h, if_neg (by omega)]
      · rw [if_neg h, if_pos (by omega)]

/-- The perceptual hashes of the five-image scenario of the spec: images
2 and 4 share a fingerprint (similarity 1), every other pair is fully
dissimilar (similarity 0), and file sizes are the image indices, so
image 4 is larger than image 2. -/
def scenarioHash : ℕ → Option Fingerprint
  | 1 => some ['a', 'a', 'a', 'a']
  | 2 => some ['b', 'b', 'b', 'b']
  | 3 => some ['c', 'c', 'c', 'c']
  | 4 => some ['b', 'b', 'b', 'b']
  | 5 => some ['d', 'd', 'd', 'd']
  | _ => none

/-- C7: for every duplicate group, the representative kept by
remove_duplicates with keep_largest is the group member with the largest
backing file size, ties broken in favor of the first-encountered member;
and in the five-image scenario where exactly images 2 and 4 are
near-identical and image 4 is larger, dedupe keeps 4, removes 2, and
keeps 1, 3 and 5. -/
theorem C7_representative_is_first_largest :
    (∀ (β : Type) [DecidableEq β] (θ : ℚ) (hashOf : β → Option Fingerprint)
        (fsize : β → ℕ) (paths : List β), ∀ g ∈ find_duplicates θ hashOf paths,
        representative fsize true g = firstLargest fsize g) ∧
    remove_duplicates DUPLICATE_THRESHOLD scenarioHash id true [1, 2, 3, 4, 5] =
      ([1, 3, 4, 5], [2]) := by
  constructor
  · intro β _ θ hashOf fsize paths g _
    unfold representative keepOrder
    rw [if_pos rfl]
    exact head?_sortBySizeDesc fsize g
  · decide

theorem C7_witness :
    [2, 4] ∈ find_duplicates DUPLICATE_THRESHOLD scenarioHash [1, 2, 3, 4, 5] ∧
    representative id true [2, 4] = firstLargest id [2, 4] :=
  ⟨by decide,
   C7_representative_is_first_largest.1 ℕ DUPLICATE_THRESHOLD scenarioHash id
     [1, 2, 3, 4, 5] [2, 4] (by decide)⟩

theorem countP_zip_ne_comm :
    ∀ l1 l2 : List Char,
      (l1.zip l2).countP (fun p => decide (p.1 ≠ p.2)) =
        (l2.zip l1).countP (fun p => decide (p.1 ≠ p.2)) := by
  intro l1
  induction l1 with
  | nil => intro l2; cases l2 <;> rfl
  | cons x xs ih =>
    intro l2
    cases l2 with
    | nil => rfl
    | cons y ys =>
      simp only [List.zip_cons_cons, List.countP_cons, ih ys]
      rw [show decide (x ≠ y) = decide (y ≠ x) from decide_eq_decide.mpr ne_comm]

theorem hamming_distance_comm (h1 h2 : Fingerprint) :
    hamming_distance h1 h2 = hamming_distance h2 h1 :=
  countP_zip_ne_comm (stripTag h1) (stripTag h2)

theorem hash_similarity_comm_of_length (h1 h2 : Fingerprint)
    (hlen : (stripTag h1).length = (stripTag h2).length) :
    hash_similarity h1 h2 = hash_similarity h2 h1 := by
  unfold hash_similarity
  rw [hamming_distance_comm, hlen]

theorem keepOrder_false (fsize : α → ℕ) (g : List α) :
    keepOrder fsize false g = g := rfl

theorem mem_hashKeys [DecidableEq α] (hashOf : α → Option Fingerprint)
    (paths : List α) (x : α) :
    x ∈ hashKeys hashOf paths ↔ x ∈ paths ∧ (validHash hashOf x).isSome := by
  unfold hashKeys
  rw [mem_dedupKeepFirst, List.mem_filter]

theorem nodup_hashKeys [DecidableEq α] (hashOf : α → Option Fingerprint)
    (paths : List α) : (hashKeys hashOf paths).Nodup :=
  nodup_dedupKeepFirst _

/-- In the grouping loop, two distinct unclaimed images whose similarity
is symmetric can never satisfy the duplicate test: otherwise the earlier
of the two would have claimed the later one. -/
theorem gather_unclaimed_dissimilar (θ : ℚ) (hs : α → Fingerprint) :
    ∀ l : List α, l.Nodup →
      (∀ x ∈ l, ∀ y ∈ l, hash_similarity (hs x) (hs y) = hash_similarity (hs y) (hs x)) →
      ∀ x ∈ l, ∀ y ∈ l, x ≠ y →
        (¬ ∃ g ∈ gatherGroups θ hs l, x ∈ g.tail) →
        (¬ ∃ g ∈ gatherGroups θ hs l, y ∈ g.tail) →
        ¬ θ ≤ hash_similarity (hs x) (hs y) := by
  refine gatherGroups_induction θ hs _ ?_ ?_
  · intro _ _ x hx; simp at hx
  · intro a rest ih hnd hsym x hx y hy hxy hxc hyc
    have hclaim : ∀ z ∈ rest, (¬ ∃ g ∈ gatherGroups θ hs (a :: rest), z ∈ g.tail) →
        z ∈ (rest.filter fun b => !(isDup θ hs a b)) ∧ ¬ θ ≤ hash_similarity (hs a) (hs z) := by
      intro z hz hzc
      by_cases hdz : isDup θ hs a z
      · exfalso
        apply hzc
        refine ⟨a :: rest.filter (isDup θ hs a), ?_, ?_⟩
        · rw [gatherGroups_cons]
          refine List.mem_append.mpr (Or.inl ?_)
          rw [if_neg ?_]
          · exact List.mem_singleton.mpr rfl
          · have : z ∈ rest.filter (isDup θ hs a) := List.mem_filter.mpr ⟨hz, hdz⟩
            intro hemp
            rw [List.isEmpty_iff.mp hemp] at this
            simp at this
        · exact List.mem_filter.mpr ⟨hz, hdz⟩
      · refine ⟨List.mem_filter.mpr ⟨hz, by simpa using hdz⟩, ?_⟩
        simpa [isDup] using hdz
    have htrans : ∀ z : α, (¬ ∃ g ∈ gatherGroups θ hs (a :: rest), z ∈ g.tail) →
        ¬ ∃ g ∈ gatherGroups θ hs (rest.filter fun b => !(isDup θ hs a b)), z ∈ g.tail := by
      intro z hzc ⟨g, hg, hzt⟩
      exact hzc ⟨g, by rw [gatherGroups_cons]; exact List.mem_append.mpr (Or.inr hg), hzt⟩
    rcases List.mem_cons.mp hx with hxa | hxr
    · subst hxa
      have hyr : y ∈ rest := by
        rcases List.mem_cons.mp hy with h | h
        · exact absurd h.symm hxy
        · exact h
      exact (hclaim y hyr hyc).2
    · rcases List.mem_cons.mp hy with hya | hyr
      · subst hya
        have hax := (hclaim x hxr hxc).2
        rw [hsym x hx y hy]
        exact hax
      · have hxf := hclaim x hxr hxc
        have hyf := hclaim y hyr hyc
        refine ih ((List.nodup_cons.mp hnd).2.filter _) ?_ x hxf.1 y hyf.1 hxy
          (htrans x hxc) (htrans y hyc)
        intro u hu v hv
        exact hsym u (List.mem_cons_of_mem a (List.mem_of_mem_filter hu))
          v (List.mem_cons_of_mem a (List.mem_of_mem_filter hv))

/-- When no pair of distinct images passes the duplicate test, the
grouping loop records no groups. -/
theorem gather_eq_nil_of_pairwise_dissimilar (θ : ℚ) (hs : α → Fingerprint) :
    ∀ l : List α, l.Nodup →
      (∀ x ∈ l, ∀ y ∈ l, x ≠ y → ¬ θ ≤ hash_similarity (hs x) (hs y)) →
      gatherGroups θ hs l = [] := by
  refine gatherGroups_induction θ hs _ ?_ ?_
  · intro _ _; rfl
  · intro a rest ih hnd hdis
    rw [gatherGroups_cons]
    have hmem : ∀ b ∈ rest, ¬(isDup θ hs a b = true) := by
      intro b hb
      have hba : a ≠ b := fun h => (List.nodup_cons.mp hnd).1 (h ▸ hb)
      have := hdis a (List.mem_cons_self a rest) b (List.mem_cons_of_mem a hb) hba
      simpa [isDup] using this
    have hdups : rest.filter (isDup θ hs a) = [] := by
      rw [List.filter_eq_nil_iff]
      exact hmem
    have hnondups : (rest.filter fun b => !(isDup θ hs a b)) = rest := by
      rw [List.filter_eq_self]
      intro b hb
      simpa using hmem b hb
    rw [hnondups] at ih
    rw [hdups, hnondups]
    simp only [List.isEmpty_nil, if_true, List.nil_append]
    refine ih (List.nodup_cons.mp hnd).2 ?_
    intro u hu v hv
    exact hdis u (List.mem_cons_of_mem a hu) v (List.mem_cons_of_mem a hv)

theorem mem_remove_duplicates_fst [LinearOrder α] (θ : ℚ)
    (hashOf : α → Option Fingerprint) (fsize : α → ℕ) (kl : Bool)
    (paths : List α) (x : α) :
    x ∈ (remove_duplicates θ hashOf fsize kl paths).1 ↔
      x ∈ paths ∧ x ∉ removedList θ hashOf fsize kl paths := by
  simp only [remove_duplicates]
  rw [List.mem_insertionSort _, List.mem_filter, mem_dedupKeepFirst]
  simp

theorem nodup_remove_duplicates_fst [LinearOrder α] (θ : ℚ)
    (hashOf : α → Option Fingerprint) (fsize : α → ℕ) (kl : Bool)
    (paths : List α) : (remove_duplicates θ hashOf fsize kl paths).1.Nodup := by
  simp only [remove_duplicates]
  refine (List.perm_insertionSort _ _).nodup_iff.mpr ?_
  exact (nodup_dedupKeepFirst paths).filter _

theorem sorted_remove_duplicates_fst [LinearOrder α] (θ : ℚ)
    (hashOf : α → Option Fingerprint) (fsize : α → ℕ) (kl : Bool)
    (paths : List α) :
    (remove_duplicates θ hashOf fsize kl paths).1.Sorted (· ≤ ·) := by
  simp only [remove_duplicates]
  exact List.sorted_insertionSort _ _

/-- C4 (amended): with keep-first selection (keep_largest false) and
fingerprints of a uniform stripped length, deduplication is idempotent:
re-running remove_duplicates on the unique set it returned yields that
same set unchanged with an empty removed set. With the default
keep-largest selection this fails (see the counterexample): the kept
largest members of two groups can themselves be near-duplicates. -/
theorem C4_remove_duplicates_idempotent_keep_first [LinearOrder α] (θ : ℚ)
    (hashOf : α → Option Fingerprint) (fsize : α → ℕ) (paths : List α)
    (hL : ∀ p ∈ paths, ∀ q ∈ paths, (validHash hashOf p).isSome →
      (validHash hashOf q).isSome →
      (stripTag (hashAt hashOf p)).length = (stripTag (hashAt hashOf q)).length) :
    remove_duplicates θ hashOf fsize false
        (remove_duplicates θ hashOf fsize false paths).1 =
      ((remove_duplicates θ hashOf fsize false paths).1, []) := by
  have hmemQ : ∀ x, x ∈ (remove_duplicates θ hashOf fsize false paths).1 ↔
      x ∈ paths ∧ x ∉ removedList θ hashOf fsize false paths :=
    mem_remove_duplicates_fst θ hashOf fsize false paths
  have hQnd : (remove_duplicates θ hashOf fsize false paths).1.Nodup :=
    nodup_remove_duplicates_fst θ hashOf fsize false paths
  have hQsorted : (remove_duplicates θ hashOf fsize false paths).1.Sorted (· ≤ ·) :=
    sorted_remove_duplicates_fst θ hashOf fsize false paths
  set Q := (remove_duplicates θ hashOf fsize false paths).1 with hQ
  -- the second run finds no duplicate groups
  have hkeys2 : ∀ x, x ∈ hashKeys hashOf Q ↔
      x ∈ Q ∧ (validHash hashOf x).isSome := fun x => mem_hashKeys hashOf Q x
  have hdis : ∀ x ∈ hashKeys hashOf Q, ∀ y ∈ hashKeys hashOf Q, x ≠ y →
      ¬ θ ≤ hash_similarity (hashAt hashOf x) (hashAt hashOf y) := by
    intro x hx y hy hxy
    obtain ⟨hxQ, hxv⟩ := (hkeys2 x).mp hx
    obtain ⟨hyQ, hyv⟩ := (hkeys2 y).mp hy
    obtain ⟨hxp, hxr⟩ := (hmemQ x).mp hxQ
    obtain ⟨hyp, hyr⟩ := (hmemQ y).mp hyQ
    have hx1 : x ∈ hashKeys hashOf paths := (mem_hashKeys hashOf paths x).mpr ⟨hxp, hxv⟩
    have hy1 : y ∈ hashKeys hashOf paths := (mem_hashKeys hashOf paths y).mpr ⟨hyp, hyv⟩
    have hxclaim : ¬ ∃ g ∈ gatherGroups θ (hashAt hashOf) (hashKeys hashOf paths), x ∈ g.tail := by
      intro ⟨g, hg, hgt⟩
      exact hxr ((mem_removedList θ hashOf fsize false paths x).mpr
        ⟨g, hg, by rw [keepOrder_false]; exact hgt⟩)
    have hyclaim : ¬ ∃ g ∈ gatherGroups θ (hashAt hashOf) (hashKeys hashOf paths), y ∈ g.tail := by
      intro ⟨g, hg, hgt⟩
      exact hyr ((mem_removedList θ hashOf fsize false paths y).mpr
        ⟨g, hg, by rw [keepOrder_false]; exact hgt⟩)
    refine gather_unclaimed_dissimilar θ (hashAt hashOf) (hashKeys hashOf paths)
      (nodup_hashKeys hashOf paths) ?_ x hx1 y hy1 hxy hxclaim hyclaim
    intro u hu v hv
    obtain ⟨hup, huv⟩ := (mem_hashKeys hashOf paths u).mp hu
    obtain ⟨hvp, hvv⟩ := (mem_hashKeys hashOf paths v).mp hv
    exact hash_similarity_comm_of_length _ _ (hL u hup v hvp huv hvv)
  have hgather2 : gatherGroups θ (hashAt hashOf) (hashKeys hashOf Q) = [] :=
    gather_eq_nil_of_pairwise_dissimilar θ (hashAt hashOf) (hashKeys hashOf Q)
      (nodup_hashKeys hashOf Q) hdis
  have hfind2 : find_duplicates θ hashOf Q = [] := hgather2
  have hrem2 : removedList θ hashOf fsize false Q = [] := by
    unfold removedList
    rw [hfind2]
    rfl
  -- assemble the second run
  simp only [remove_duplicates, hrem2]
  have hfilter : (Q.filter fun p => decide (p ∉ ([] : List α))) = Q := by
    rw [List.filter_eq_self]
    intro a _
    simp
  rw [dedupKeepFirst_eq_self Q hQnd, hfilter, hQsorted.insertionSort_eq]

/-- The perceptual hashes of the C4 counterexample: four 20-character
fingerprints at pairwise Hamming distances d(1,2)=1, d(3,4)=1, d(2,4)=1,
d(1,3)=3, d(1,4)=2, so with threshold 0.95 the first run groups {1,2} and
{3,4}, keeps the larger files 2 and 4, and 2 and 4 are themselves
near-duplicates. -/
def cHash : ℕ → Option Fingerprint
  | 1 => some (List.replicate 20 '0')
  | 2 => some ('1' :: List.replicate 19 '0')
  | 3 => some ('1' :: '1' :: '1' :: List.replicate 17 '0')
  | 4 => some ('1' :: '1' :: List.replicate 18 '0')
  | _ => none

theorem C4_counterexample :
    remove_duplicates DUPLICATE_THRESHOLD cHash id true [1, 2, 3, 4] = ([2, 4], [1, 3]) ∧
    remove_duplicates DUPLICATE_THRESHOLD cHash id true
        (remove_duplicates DUPLICATE_THRESHOLD cHash id true [1, 2, 3, 4]).1 ≠
      ((remove_duplicates DUPLICATE_THRESHOLD cHash id true [1, 2, 3, 4]).1, []) := by
  constructor
  · decide
  · decide

theorem C4_witness :
    remove_duplicates DUPLICATE_THRESHOLD cHash id false
        (remove_duplicates DUPLICATE_THRESHOLD cHash id false [1, 2, 3, 4]).1 =
      ((remove_duplicates DUPLICATE_THRESHOLD cHash id false [1, 2, 3, 4]).1, []) :=
  C4_remove_duplicates_idempotent_keep_first DUPLICATE_THRESHOLD cHash id
    [1, 2, 3, 4] (by decide)

/-! ## src/utils/helpers.py : normalize_actor_name

Python strings are lists of characters; the character classes (lower,
isalnum, whitespace) follow Lean's ASCII character predicates, matching
Python on the ASCII range. -/

theorem char_toNat_ofNat {n : ℕ} (h : n < 55296) : (Char.ofNat n).toNat = n := by
  unfold Char.ofNat
  rw [dif_pos (Or.inl h)]
  rfl

theorem char_isUpper_iff (c : Char) :
    c.isUpper = true ↔ 65 ≤ c.toNat ∧ c.toNat ≤ 90 := by
  simp [Char.isUpper, Char.toNat, UInt32.le_def, BitVec.le_def, UInt32.toNat]

theorem char_toLower_eq_of_not_upper (c : Char)
    (h : ¬(65 ≤ c.toNat ∧ c.toNat ≤ 90)) : c.toLower = c := by
  unfold Char.toLower
  rw [if_neg (by omega)]

theorem char_toLower_toNat_of_upper (c : Char)
    (h : 65 ≤ c.toNat ∧ c.toNat ≤ 90) : (c.toLower).toNat = c.toNat + 32 := by
  unfold Char.toLower
  rw [if_pos (by omega)]
  exact char_toNat_ofNat (by omega)

theorem char_toLower_idem (c : Char) : c.toLower.toLower = c.toLower := by
  by_cases h : 65 ≤ c.toNat ∧ c.toNat ≤ 90
  · refine char_toLower_eq_of_not_upper _ ?_
    rw [char_toLower_toNat_of_upper c h]
    omega
  · rw [char_toLower_eq_of_not_upper c h, char_toLower_eq_of_not_upper c h]

theorem char_isUpper_false_of_toLower_fixed (c : Char) (h : c.toLower = c) :
    c.isUpper = false := by
  by_cases hu : c.isUpper = true
  · exfalso
    have hb := (char_isUpper_iff c).mp hu
    have hn := char_toLower_toNat_of_upper c hb
    rw [h] at hn
    omega
  · simpa using hu

/-- The per-character test of the filtering step of normalize_actor_name:
keep alphanumeric characters and underscores. -/
def keepChar (c : Char) : Bool := c.isAlphanum || c == '_'

theorem char_not_whitespace_of_keep (c : Char) (h : keepChar c = true) :
    c.isWhitespace = false := by
  by_cases hw : c.isWhitespace = true
  · exfalso
    have hcases : ((c = ' ' ∨ c = '\t') ∨ c = '\r') ∨ c = '\n' := by
      simpa [Char.isWhitespace] using hw
    rcases hcases with ((hc | hc) | hc) | hc <;> (subst hc; revert h; decide)
  · simpa using hw

theorem char_ne_space_of_keep (c : Char) (h : keepChar c = true) : c ≠ ' ' := by
  intro hc
  subst hc
  revert h
  decide

/-- Python str.strip: remove leading and trailing whitespace. -/
def pyStrip (s : List Char) : List Char :=
  (((s.dropWhile Char.isWhitespace).reverse).dropWhile Char.isWhitespace).reverse

/-- name.replace(a space, an underscore). -/
def replaceSpaces (s : List Char) : List Char :=
  s.map fun c => if c = ' ' then '_' else c

/-- The comprehension keeping only alphanumerics and underscores. -/
def keepAlnumUnderscore (s : List Char) : List Char :=
  s.filter keepChar

/-- One pass of name.replace(double underscore, single underscore):
replace non-overlapping occurrences left to right. -/
def collapsePass : List Char → List Char
  | [] => []
  | [c] => [c]
  | c1 :: c2 :: rest =>
    if c1 = '_' ∧ c2 = '_' then '_' :: collapsePass rest
    else c1 :: collapsePass (c2 :: rest)

/-- The loop condition: a double underscore occurs somewhere in the
string. -/
def hasDoubleUnderscore : List Char → Bool
  | c1 :: c2 :: rest =>
    if c1 = '_' ∧ c2 = '_' then true else hasDoubleUnderscore (c2 :: rest)
  | _ => false

/-- Fuel-indexed form of the while loop collapsing double underscores;
every iteration strictly shrinks the string, so string-length fuel
suffices. -/
def collapseGo : ℕ → List Char → List Char
  | 0, s => s
  | fuel + 1, s =>
    if hasDoubleUnderscore s then collapseGo fuel (collapsePass s) else s

/-- The while loop of normalize_actor_name: replace double underscores by
single ones until none remain. -/
def collapseUnderscores (s : List Char) : List Char :=
  collapseGo s.length s

/-- helpers.normalize_actor_name: lowercase, strip, spaces to
underscores, keep only alphanumerics and underscores, collapse repeated
underscores. -/
def normalize_actor_name (s : List Char) : List Char :=
  collapseUnderscores (keepAlnumUnderscore (replaceSpaces (pyStrip (s.map Char.toLower))))

theorem collapsePass_length_le : ∀ s : List Char, (collapsePass s).length ≤ s.length := by
  intro s
  induction s using collapsePass.induct with
  | case1 => simp [collapsePass]
  | case2 c => simp [collapsePass]
  | case3 c1 c2 rest hu ih =>
    rw [collapsePass, if_pos hu]
    simp only [List.length_cons]
    omega
  | case4 c1 c2 rest hu ih =>
    rw [collapsePass, if_neg hu]
    simp only [List.length_cons] at ih ⊢
    omega

theorem collapsePass_length_lt :
    ∀ s : List Char, hasDoubleUnderscore s = true →
      (collapsePass s).length < s.length := by
  intro s
  induction s using collapsePass.induct with
  | case1 => intro h; simp [hasDoubleUnderscore] at h
  | case2 c => intro h; simp [hasDoubleUnderscore] at h
  | case3 c1 c2 rest hu ih =>
    intro _
    rw [collapsePass, if_pos hu]
    have := collapsePass_length_le rest
    simp only [List.length_cons]
    omega
  | case4 c1 c2 rest hu ih =>
    intro hd
    rw [hasDoubleUnderscore, if_neg hu] at hd
    rw [collapsePass, if_neg hu]
    have hlt := ih hd
    simp only [List.length_cons] at hlt ⊢
    omega

theorem mem_collapsePass : ∀ s : List Char, ∀ c ∈ collapsePass s, c ∈ s := by
  intro s
  induction s using collapsePass.induct with
  | case1 => intro c hc; simp [collapsePass] at hc
  | case2 d => intro c hc; simp [collapsePass] at hc; simp [hc]
  | case3 c1 c2 rest hu ih =>
    intro c hc
    rw [collapsePass, if_pos hu] at hc
    rcases List.mem_cons.mp hc with hc | hc
    · subst hc
      exact hu.1 ▸ List.mem_cons_self _ _
    · exact List.mem_cons_of_mem _ (List.mem_cons_of_mem _ (ih c hc))
  | case4 c1 c2 rest hu ih =>
    intro c hc
    rw [collapsePass, if_neg hu] at hc
    rcases List.mem_cons.mp hc with hc | hc
    · exact hc ▸ List.mem_cons_self _ _
    · exact List.mem_cons_of_mem _ (ih c hc)

theorem mem_collapseGo : ∀ (fuel : ℕ) (s : List Char), ∀ c ∈ collapseGo fuel s, c ∈ s := by
  intro fuel
  induction fuel with
  | zero => intro s c hc; exact hc
  | succ f ih =>
    intro s c hc
    rw [collapseGo] at hc
    by_cases hd : hasDoubleUnderscore s = true
    · rw [if_pos hd] at hc
      exact mem_collapsePass s c (ih (collapsePass s) c hc)
    · rw [if_neg hd] at hc
      exact hc

theorem collapseGo_no_double :
    ∀ (fuel : ℕ) (s : List Char), s.length ≤ fuel →
      hasDoubleUnderscore (collapseGo fuel s) = false := by
  intro fuel
  induction fuel with
  | zero =>
    intro s hs
    have : s = [] := List.eq_nil_of_length_eq_zero (Nat.le_zero.mp hs)
    subst this
    rfl
  | succ f ih =>
    intro s hs
    rw [collapseGo]
    by_cases hd : hasDoubleUnderscore s = true
    · rw [if_pos hd]
      refine ih (collapsePass s) ?_
      have := collapsePass_length_lt s hd
      omega
    · rw [if_neg hd]
      simpa using hd

theorem collapseGo_eq_self (fuel : ℕ) (s : List Char)
    (h : hasDoubleUnderscore s = false) : collapseGo fuel s = s := by
  cases fuel with
  | zero => rfl
  | succ f => rw [collapseGo, if_neg (by simp [h])]

theorem hasDoubleUnderscore_normalize (s : List Char) :
    hasDoubleUnderscore (normalize_actor_name s) = false := by
  unfold normalize_actor_name collapseUnderscores
  exact collapseGo_no_double _ _ (le_refl _)

theorem map_eq_self_of_forall {β : Type} (f : β → β) :
    ∀ l : List β, (∀ c ∈ l, f c = c) → l.map f = l := by
  intro l
  induction l with
  | nil => intro _; rfl
  | cons c cs ih =>
    intro h
    rw [List.map_cons, h c (List.mem_cons_self c cs),
      ih fun d hd => h d (List.mem_cons_of_mem c hd)]

theorem dropWhile_eq_self_of_forall {β : Type} (p : β → Bool) (l : List β)
    (h : ∀ c ∈ l, p c = false) : l.dropWhile p = l := by
  cases l with
  | nil => rfl
  | cons c cs =>
    rw [List.dropWhile_cons, if_neg (by simp [h c (List.mem_cons_self c cs)])]

theorem pyStrip_eq_self (l : List Char)
    (h : ∀ c ∈ l, Char.isWhitespace c = false) : pyStrip l = l := by
  unfold pyStrip
  rw [dropWhile_eq_self_of_forall _ _ h,
    dropWhile_eq_self_of_forall _ _ fun c hc => h c (List.mem_reverse.mp hc),
    List.reverse_reverse]

theorem mem_pyStrip (l : List Char) (c : Char) (hc : c ∈ pyStrip l) : c ∈ l := by
  unfold pyStrip at hc
  have h1 := List.mem_reverse.mp hc
  have h2 := (List.dropWhile_sublist _).subset h1
  have h3 := List.mem_reverse.mp h2
  exact (List.dropWhile_sublist _).subset h3

theorem normalize_chars (s : List Char) :
    ∀ c ∈ normalize_actor_name s, keepChar c = true ∧ Char.toLower c = c := by
  intro c hc
  unfold normalize_actor_name collapseUnderscores at hc
  have h1 : c ∈ keepAlnumUnderscore (replaceSpaces (pyStrip (s.map Char.toLower))) :=
    mem_collapseGo _ _ c hc
  have h2 := List.mem_filter.mp h1
  refine ⟨h2.2, ?_⟩
  obtain ⟨c0, hc0, hceq⟩ := List.mem_map.mp h2.1
  by_cases hsp : c0 = ' '
  · rw [if_pos hsp] at hceq
    rw [← hceq]
    decide
  · rw [if_neg hsp] at hceq
    subst hceq
    obtain ⟨c1, _, hc1⟩ := List.mem_map.mp (mem_pyStrip _ c0 hc0)
    rw [← hc1]
    exact char_toLower_idem c1

/-- C10: normalize_actor_name is idempotent, its output contains only
lowercase alphanumeric characters and underscores, and the output never
contains two consecutive underscores. -/
theorem C10_normalize_actor_name_idempotent_shape (s : List Char) :
    normalize_actor_name (normalize_actor_name s) = normalize_actor_name s ∧
    (∀ c ∈ normalize_actor_name s, (c.isLower || c.isDigit || c == '_') = true) ∧
    hasDoubleUnderscore (normalize_actor_name s) = false := by
  have hch := normalize_chars s
  refine ⟨?_, ?_, hasDoubleUnderscore_normalize s⟩
  · conv_lhs => rw [normalize_actor_name]
    rw [map_eq_self_of_forall _ _ fun c hc => (hch c hc).2]
    rw [pyStrip_eq_self _ fun c hc => char_not_whitespace_of_keep c (hch c hc).1]
    rw [show replaceSpaces (normalize_actor_name s) = normalize_actor_name s from
      map_eq_self_of_forall _ _ fun c hc =>
        if_neg (char_ne_space_of_keep c (hch c hc).1)]
    rw [show keepAlnumUnderscore (normalize_actor_name s) = normalize_actor_name s from
      List.filter_eq_self.mpr fun c hc => (hch c hc).1]
    unfold collapseUnderscores
    exact collapseGo_eq_self _ _ (hasDoubleUnderscore_normalize s)
  · intro c hc
    obtain ⟨hk, hl⟩ := hch c hc
    have hu := char_isUpper_false_of_toLower_fixed c hl
    rw [keepChar, Bool.or_eq_true] at hk
    rcases hk with halnum | hund
    · have : (c.isUpper || c.isLower || c.isDigit) = true := by
        simpa [Char.isAlphanum, Char.isAlpha, Bool.or_assoc] using halnum
      rw [hu] at this
      simp only [Bool.false_or] at this
      simp [this]
    · simp [hund]

theorem C10_witness :
    'a' ∈ normalize_actor_name ['A', ' ', 'b'] ∧
    (Char.isLower 'a' || Char.isDigit 'a' || 'a' == '_') = true :=
  ⟨by decide,
   (C10_normalize_actor_name_idempotent_shape ['A', ' ', 'b']).2.1 'a' (by decide)⟩

/-! ## src/main.py : ActorDatasetBuilder

The stage collaborators (TMDb identification, image download, face
detection, reference extraction, saving) are oracles recorded in an
environment; build_dataset sequences them exactly as the Python control
flow does. The report keeps the fields the claims are about: the overall
status, the error string, and the per-stage status entries in insertion
order; the second component of the result is the list of stages that
were invoked. -/

/-- The fields of the Python run report used by the claims. -/
structure Report where
  status : String
  error : Option String
  stages : List (String × String)
deriving DecidableEq

/-- The collaborator results driving one build_dataset run. -/
structure PipelineEnv (α : Type) where
  profile : Option Unit
  downloaded : ℕ
  detected : List α
  reference : Option (List ℝ)
  emb : α → Option (List ℝ)
  hashOf : α → Option Fingerprint
  fsize : α → ℕ
  savedCount : List α → ℕ

/-- ActorDatasetBuilder.verify_actor_faces: returns ([], {}) for an empty
face list; otherwise sets the reference actor (extraction may fail and
leave the reference unset, which is only logged as a warning) and runs
verify_batch with return_scores=True. -/
noncomputable def verify_actor_faces (ref : Option (List ℝ)) (emb : α → Option (List ℝ))
    (faces : List α) : List α × List (α × ℝ) :=
  if faces.isEmpty then ([], [])
  else verify_batch ref emb none true faces

/-- ActorDatasetBuilder.build_dataset, lines 460-595: the six-stage
pipeline with its early returns. Stage entries are appended to the
report only when a stage succeeds; an early return on a zero-output
stage leaves the report with the entries recorded so far. -/
noncomputable def build_dataset [LinearOrder α] (env : PipelineEnv α)
    (verify_actor : Bool) (target_images : ℕ) : Report × List String :=
  match env.profile with
  | none =>
    ({ status := "failed", error := some "Could not identify actor", stages := [] },
     ["identify"])
  | some _ =>
    let st1 := [("identification", "success")]
    if env.downloaded = 0 then
      ({ status := "failed", error := some "Could not download any images", stages := st1 },
       ["identify", "download"])
    else
      let st2 := st1 ++ [("download", "success")]
      if env.detected.isEmpty then
        ({ status := "failed", error := some "Could not detect any valid faces",
           stages := st2 },
         ["identify", "download", "detect"])
      else
        let st3 := st2 ++ [("face_detection", "success")]
        let vres := if verify_actor then
            verify_actor_faces env.reference env.emb env.detected
          else (env.detected, [])
        let st4 := st3 ++ [("verification", if verify_actor then "success" else "skipped")]
        if vres.1.isEmpty then
          ({ status := "partial", error := some "No faces passed verification",
             stages := st4 },
           ["identify", "download", "detect", "verify"])
        else
          let dres := remove_duplicates DUPLICATE_THRESHOLD env.hashOf env.fsize true vres.1
          let st5 := st4 ++ [("deduplication", "success")]
          let saved := env.savedCount dres.1
          let st6 := st5 ++ [("save", "success")]
          let final := if target_images ≤ saved then "success"
            else if 0 < saved then "partial" else "failed"
          ({ status := final, error := none, stages := st6 },
           ["identify", "download", "detect", "verify", "dedupe", "save"])

/-- C5 (amended): if the Download stage fetches zero images, the run
report's overall status is failed with the download error message and no
later stage (Detect, Verify, Dedupe, Save) runs; however the report's
stages dictionary contains no download entry at all (stage entries are
only written on success), rather than a download entry with status
failed. -/
theorem C5_zero_downloads_fail_no_download_entry [LinearOrder α]
    (env : PipelineEnv α) (vb : Bool) (ti : ℕ)
    (hprof : env.profile.isSome) (hdl : env.downloaded = 0) :
    (build_dataset env vb ti).1.status = "failed" ∧
    (build_dataset env vb ti).1.error = some "Could not download any images" ∧
    (build_dataset env vb ti).1.stages = [("identification", "success")] ∧
    (build_dataset env vb ti).2 = ["identify", "download"] := by
  obtain ⟨p, hp⟩ := Option.isSome_iff_exists.mp hprof
  unfold build_dataset
  rw [hp]
  rw [if_pos hdl]
  exact ⟨rfl, rfl, rfl, rfl⟩

/-- A concrete run whose Download stage fetches zero images. -/
noncomputable def envC5 : PipelineEnv ℕ where
  profile := some ()
  downloaded := 0
  detected := []
  reference := none
  emb := fun _ => none
  hashOf := fun _ => none
  fsize := id
  savedCount := List.length

theorem C5_counterexample :
    (build_dataset envC5 true 50).1.status = "failed" ∧
    (build_dataset envC5 true 50).1.stages.lookup "download" = none ∧
    (build_dataset envC5 true 50).2 = ["identify", "download"] :=
  ⟨rfl, rfl, rfl⟩

theorem C5_witness :
    (build_dataset envC5 true 50).1.status = "failed" ∧
    (build_dataset envC5 true 50).1.error = some "Could not download any images" ∧
    (build_dataset envC5 true 50).1.stages = [("identification", "success")] ∧
    (build_dataset envC5 true 50).2 = ["identify", "download"] :=
  C5_zero_downloads_fail_no_download_entry envC5 true 50 rfl rfl

/-- C6 (amended): if reference-embedding extraction fails, the run is not
skipped: verify_batch accepts no candidate at all (empty accepted set and
empty score dict), the verification stage entry still reads success, and
the run ends with status partial and the error that no faces passed
verification — all candidates are effectively treated as rejected. -/
theorem C6_reference_failure_rejects_all [LinearOrder α]
    (env : PipelineEnv α) (ti : ℕ)
    (hprof : env.profile.isSome) (hdl : ¬env.downloaded = 0)
    (hdet : ¬env.detected.isEmpty = true) (href : env.reference = none) :
    verify_actor_faces env.reference env.emb env.detected = ([], []) ∧
    (build_dataset env true ti).1.status = "partial" ∧
    (build_dataset env true ti).1.error = some "No faces passed verification" ∧
    (build_dataset env true ti).1.stages.lookup "verification" = some "success" ∧
    (build_dataset env true ti).2 = ["identify", "download", "detect", "verify"] := by
  obtain ⟨p, hp⟩ := Option.isSome_iff_exists.mp hprof
  have hvf : verify_actor_faces env.reference env.emb env.detected = ([], []) := by
    unfold verify_actor_faces
    rw [if_neg hdet, href]
    rfl
  refine ⟨hvf, ?_⟩
  unfold build_dataset
  rw [hp]
  rw [if_neg hdl, if_neg hdet]
  simp only [if_pos rfl, hvf]
  exact ⟨rfl, rfl, rfl, rfl⟩

/-- A concrete run with images and faces but a failed reference
extraction. -/
noncomputable def envC6 : PipelineEnv ℕ where
  profile := some ()
  downloaded := 1
  detected := [0]
  reference := none
  emb := fun _ => none
  hashOf := fun _ => none
  fsize := id
  savedCount := List.length

theorem C6_counterexample :
    verify_actor_faces none (fun _ : ℕ => some [1]) [0, 1] = ([], []) ∧
    ([0, 1] : List ℕ) ≠ [] :=
  ⟨rfl, by decide⟩

theorem C6_witness :
    verify_actor_faces envC6.reference envC6.emb envC6.detected = ([], []) ∧
    (build_dataset envC6 true 50).1.status = "partial" ∧
    (build_dataset envC6 true 50).1.error = some "No faces passed verification" ∧
    (build_dataset envC6 true 50).1.stages.lookup "verification" = some "success" ∧
    (build_dataset envC6 true 50).2 = ["identify", "download", "detect", "verify"] :=
  C6_reference_failure_rejects_all envC6 50 rfl (by decide) (by decide) rfl

end ActorDataset
